import Mathlib

/-!
Verification of the string-parsing utilities of zim-desktop-wiki
(`zim/parsing.py`): the backslash escape codec, the escape-aware splitter,
the URL percent-codec with its three modes, the link classifier, the
stateful regex wrapper `Re`, the date parser and the interwiki key
normalizer.

Strings are modelled as `List Char` (Python `str` is a sequence of Unicode
code points, as is `List Char`).  Bytes are modelled as `Nat` values < 256.
Python regular expressions are modelled by hand-rolled scanners and
decidable existence-of-decomposition predicates; each definition carries a
comment naming the regex it translates.  The character classes `\w`, `\d`,
`\s` are modelled by their ASCII fragments (the source compiles its
patterns with `re.U`, so they also cover non-ASCII letters, digits and
spaces; no claim in scope depends on a non-ASCII member of these classes).
-/

set_option maxHeartbeats 1600000

/-! ## Generic list helpers -/

/-- Concatenation of the images of `f` over a list (`re.sub` with a
single-character pattern replaces character-wise, which is exactly a
`concatMap` over the characters). -/
def concatMap (f : α → List β) : List α → List β
  | [] => []
  | a :: l => f a ++ concatMap f l

/-- All ways to split a list around one element:
`splitsAround [a,b,c] = [([],a,[b,c]), ([a],b,[c]), ([a,b],c,[])]`.
Used to give executable meaning to an existential over a regex
decomposition. -/
def splitsAround : List α → List (List α × α × List α)
  | [] => []
  | a :: l => ([], a, l) :: (splitsAround l).map (fun p => (a :: p.1, p.2.1, p.2.2))

/-- All ways to cut a list in two: `(take i, drop i)` for every `i`. -/
def cuts (l : List α) : List (List α × List α) :=
  (List.range (l.length + 1)).map (fun i => (l.take i, l.drop i))

/-- Python slice `l[a:b]`. -/
def listSlice (l : List Char) (a b : Nat) : List Char :=
  (l.drop a).take (b - a)

/-- Join pieces with a single separator character between them
(`sep.join(parts)` for a one-character separator). -/
def joinSep (c : Char) : List (List Char) → List Char
  | [] => []
  | [p] => p
  | p :: q :: r => p ++ c :: joinSep c (q :: r)

/-! ## EscapeCodec: `escape_string` / `unescape_string` / `split_escaped_string` -/

/-- `_escape(match)`: newline and tab (and carriage return) get mnemonic
letters, every other matched character gets a literal backslash prefix. -/
def escapeMatch (c : Char) : List Char :=
  if c = '\n' then ['\\', 'n']
  else if c = '\r' then ['\\', 'r']
  else if c = '\t' then ['\\', 't']
  else ['\\', c]

/-- CPython's character-class body parser (`sre_parse`) on the part of
the class that comes from `chars`: read one item; when a `-` follows and
another character remains before the closing `]` (here: end of list), the
two items form a code-point range — a reversed range raises `re.error`,
modelled as `none` — while a trailing `-` is a literal.  Ranges are
returned as code-point intervals; a single character is the interval
containing only itself. -/
def classItems : List Char → Option (List (Nat × Nat))
  | [] => some []
  | x :: rest =>
    match rest with
    | [] => some [(x.toNat, x.toNat)]
    | d :: rest2 =>
      if d = '-' then
        match rest2 with
        | [] => some [(x.toNat, x.toNat), (45, 45)]
        | y :: rest3 =>
          if x.toNat ≤ y.toNat then
            (classItems rest3).map (fun r => (x.toNat, y.toNat) :: r)
          else none
      else (classItems (d :: rest2)).map (fun r => (x.toNat, x.toNat) :: r)

/-- The intervals of the class `[\n\r\t\\%s]` contributed by the escaped
backslash item and `chars`.  The three control characters are parsed as
plain literals (none is followed by `-`) and are tested separately; the
escaped backslash that precedes `chars` in the class can form a range
with a leading `-` of `chars` (code 92 up to the next character, a
`re.error` when that character is below 92), exactly as CPython parses
it.  A `]` inside `chars` would close the class early and a `\\` would
start an escape, changing the shape of the whole pattern; the embedding
covers `chars` without these two characters (the theorems below assume
as much, and the source's callers pass plain punctuation sets). -/
def escapeClassRanges (chars : List Char) : Option (List (Nat × Nat)) :=
  match chars with
  | [] => some [(92, 92)]
  | c :: rest =>
    if c = '-' then
      match rest with
      | [] => some [(92, 92), (45, 45)]
      | y :: rest2 =>
        if 92 ≤ y.toNat then (classItems rest2).map (fun r => (92, y.toNat) :: r)
        else none
    else (classItems (c :: rest)).map (fun r => (92, 92) :: r)

/-- Membership of a character in a list of code-point intervals. -/
def escapeClassMember (rs : List (Nat × Nat)) (c : Char) : Bool :=
  rs.any fun r => decide (r.1 ≤ c.toNat ∧ c.toNat ≤ r.2)

/-- One character of the escape substitution, given the parsed class
intervals: a character matched by the class (the three control literals,
or any interval) is replaced by `_escape` of itself, everything else is
kept. -/
def escapeMatchedChar (rs : List (Nat × Nat)) (c : Char) : List Char :=
  if c = '\n' ∨ c = '\r' ∨ c = '\t' ∨ escapeClassMember rs c then escapeMatch c
  else [c]

/-- `escape_string(string, chars)`:
`re.sub('[\n\r\t\\\\%s]' % chars, _escape, string)`.  `chars` is
interpolated into a regex character class, so its characters are class
syntax rather than literals: `-` forms code-point ranges (`none` models
the `re.error` raised by a reversed range).  The pattern is a
single-character class, so the substitution is character-wise. -/
def escape_string (s : List Char) (chars : List Char) : Option (List Char) :=
  (escapeClassRanges chars).map (fun rs => concatMap (escapeMatchedChar rs) s)

/-- `_unescape(match)`: `n` maps to newline, `t` to tab, any other escaped
character maps to itself. -/
def unescChar (d : Char) : Char :=
  if d = 'n' then '\n' else if d = 't' then '\t' else d

/-- `unescape_string(string)`: `re.sub('\\\\.', _unescape, string)`.
The scanner walks left to right over non-overlapping matches of
"backslash followed by any character"; `.` does not match a newline, so a
backslash directly followed by a newline is left alone. -/
def unescape_string : List Char → List Char
  | [] => []
  | c :: t =>
    if c = '\\' then
      match t with
      | d :: t2 =>
        if d = '\n' then c :: unescape_string (d :: t2)
        else unescChar d :: unescape_string t2
      | [] => c :: unescape_string []
    else c :: unescape_string t

/-- Number of trailing backslashes of a piece
(`re.search('\\\\+$', piece)` finds the maximal run at the end). -/
def trailingBackslashes (p : List Char) : Nat :=
  (p.reverse.takeWhile (fun c => c = '\\')).length

/-- The `trailing_backslash` flag: the piece ends in an odd number of
backslashes. -/
def oddTrailingBackslash (p : List Char) : Bool :=
  trailingBackslashes p % 2 = 1

/-- Python `string.split(char)`: naive split on every occurrence of the
character; the result is always non-empty. -/
def splitOnChar (c : Char) : List Char → List (List Char)
  | [] => [[]]
  | x :: t =>
    if x = c then [] :: splitOnChar c t
    else
      match splitOnChar c t with
      | h :: r => (x :: h) :: r
      | [] => [[x]]

/-- The accumulation loop of `split_escaped_string`: if the previous raw
piece ended in an odd number of backslashes the current piece is glued to
the accumulated part with the separator re-inserted (`parts[-1] + char +
piece`), otherwise the accumulated part is emitted and a new one starts.
The flag is always recomputed from the raw piece just consumed. -/
def mergeEscapedPieces (c : Char) (cur : List Char) (flag : Bool) :
    List (List Char) → List (List Char)
  | [] => [cur]
  | q :: rest =>
    if flag then mergeEscapedPieces c (cur ++ c :: q) (oddTrailingBackslash q) rest
    else cur :: mergeEscapedPieces c q (oddTrailingBackslash q) rest

/-- `split_escaped_string(string, char)`: split on `char` while respecting
backslash escapes. -/
def split_escaped_string (s : List Char) (c : Char) : List (List Char) :=
  match splitOnChar c s with
  | [] => []
  | p :: rest => mergeEscapedPieces c p (oddTrailingBackslash p) rest

/-! ## PercentCodec: UTF-8 model -/

/-- UTF-8 encoding of a code point (RFC 3629); total on `Nat`, applied
only to code points of `Char`s. -/
def utf8EncodeNat (v : Nat) : List Nat :=
  if v < 128 then [v]
  else if v < 2048 then [192 + v / 64, 128 + v % 64]
  else if v < 65536 then [224 + v / 4096, 128 + v / 64 % 64, 128 + v % 64]
  else [240 + v / 262144, 128 + v / 4096 % 64, 128 + v / 64 % 64, 128 + v % 64]

/-- UTF-8 bytes of one character (Python `char.encode('UTF-8')`). -/
def utf8Bytes (c : Char) : List Nat := utf8EncodeNat c.toNat

/-- UTF-8 bytes of a string (Python `url.encode('UTF-8')`). -/
def strToUtf8 (s : List Char) : List Nat := concatMap utf8Bytes s

/-- Strict UTF-8 decoding of a whole byte sequence
(Python `data.decode('UTF-8')`): rejects truncated sequences, bad lead or
continuation bytes, overlong forms, surrogates and values above
`0x10FFFF`; `none` models the raised `UnicodeDecodeError`. -/
def utf8DecodeAll : List Nat → Option (List Char)
  | [] => some []
  | b :: t =>
    if b < 128 then (utf8DecodeAll t).map (fun cs => Char.ofNat b :: cs)
    else if 194 ≤ b ∧ b ≤ 223 then
      match t with
      | c1 :: t2 =>
        if 128 ≤ c1 ∧ c1 ≤ 191 then
          (utf8DecodeAll t2).map (fun cs => Char.ofNat ((b - 192) * 64 + (c1 - 128)) :: cs)
        else none
      | [] => none
    else if 224 ≤ b ∧ b ≤ 239 then
      match t with
      | c1 :: c2 :: t2 =>
        if 128 ≤ c1 ∧ c1 ≤ 191 ∧ 128 ≤ c2 ∧ c2 ≤ 191 then
          let v := (b - 224) * 4096 + (c1 - 128) * 64 + (c2 - 128)
          if 2048 ≤ v ∧ ¬(55296 ≤ v ∧ v ≤ 57343) then
            (utf8DecodeAll t2).map (fun cs => Char.ofNat v :: cs)
          else none
        else none
      | _ => none
    else if 240 ≤ b ∧ b ≤ 244 then
      match t with
      | c1 :: c2 :: c3 :: t2 =>
        if 128 ≤ c1 ∧ c1 ≤ 191 ∧ 128 ≤ c2 ∧ c2 ≤ 191 ∧ 128 ≤ c3 ∧ c3 ≤ 191 then
          let v := (b - 240) * 262144 + (c1 - 128) * 4096 + (c2 - 128) * 64 + (c3 - 128)
          if 65536 ≤ v ∧ v ≤ 1114111 then
            (utf8DecodeAll t2).map (fun cs => Char.ofNat v :: cs)
          else none
        else none
      | _ => none
    else none

/-! ## PercentCodec: encoding -/

/-- Mode constant: encode or decode everything. -/
def URL_ENCODE_DATA : Nat := 0
/-- Mode constant: everything except `/`. -/
def URL_ENCODE_PATH : Nat := 1
/-- Mode constant: only space and non-ASCII. -/
def URL_ENCODE_READABLE : Nat := 2

/-- The unreserved set of `_url_encode_re`: `[A-Za-z0-9\-_.~]`
(the regex replaces the complement of this class). -/
def isUnreservedChar (c : Char) : Bool :=
  decide ((65 ≤ c.toNat ∧ c.toNat ≤ 90) ∨ (97 ≤ c.toNat ∧ c.toNat ≤ 122) ∨
    (48 ≤ c.toNat ∧ c.toNat ≤ 57) ∨ c.toNat = 45 ∨ c.toNat = 95 ∨ c.toNat = 46 ∨ c.toNat = 126)

/-- Uppercase hexadecimal digit of a nibble (`'%02X' % b` renders each
byte with uppercase hex digits). -/
def hexUpper (n : Nat) : Char :=
  if n < 10 then Char.ofNat (48 + n) else Char.ofNat (55 + n)

/-- Render every byte of a list as a `%XX` escape (two uppercase hex
digits). -/
def escTriples (bs : List Nat) : List Char :=
  concatMap (fun b => ['%', hexUpper (b / 16), hexUpper (b % 16)]) bs

/-- `_url_encode(match)`: the matched character is encoded to UTF-8 and
every byte is rendered as `%XX` (two uppercase hex digits; bytes are
always < 256, so `%02X` is exactly two digits). -/
def pctEscape (c : Char) : List Char :=
  escTriples (utf8Bytes c)

/-- One character of `url_encode` in `URL_ENCODE_DATA` mode:
`_url_encode_re.sub(_url_encode, url)` escapes everything outside the
unreserved set. -/
def urlEncodeDataChar (c : Char) : List Char :=
  if isUnreservedChar c then [c] else pctEscape c

/-- One character of `url_encode` in `URL_ENCODE_PATH` mode:
`_url_encode_path_re` additionally leaves `/` (code 47) alone. -/
def urlEncodePathChar (c : Char) : List Char :=
  if isUnreservedChar c ∨ c.toNat = 47 then [c] else pctEscape c

/-- One character of `url_encode` in `URL_ENCODE_READABLE` mode:
`_url_encode_readable` is called on the characters matched by
`_url_encode_re` and encodes only space (code 32) and non-ASCII
(code > 127), returning everything else unchanged. -/
def urlEncodeReadableChar (c : Char) : List Char :=
  if isUnreservedChar c then [c]
  else if c.toNat = 32 ∨ c.toNat > 127 then pctEscape c
  else [c]

/-- `url_encode(url, mode)`.  The source `assert False`s on an unknown
mode; that branch is modelled as `[]` and is never used. -/
def url_encode (url : List Char) (mode : Nat) : List Char :=
  if mode = URL_ENCODE_DATA then concatMap urlEncodeDataChar url
  else if mode = URL_ENCODE_PATH then concatMap urlEncodePathChar url
  else if mode = URL_ENCODE_READABLE then concatMap urlEncodeReadableChar url
  else []

/-! ## PercentCodec: decoding -/

/-- `[0-7]`: first hex digit of an ASCII byte escape. -/
def isOctDigitChar (c : Char) : Bool := decide (48 ≤ c.toNat ∧ c.toNat ≤ 55)

/-- `[a-fA-F0-9]`. -/
def isHexDigitChar (c : Char) : Bool :=
  decide ((48 ≤ c.toNat ∧ c.toNat ≤ 57) ∨ (65 ≤ c.toNat ∧ c.toNat ≤ 70) ∨
    (97 ≤ c.toNat ∧ c.toNat ≤ 102))

/-- Value of a hex digit character (`int(.., 16)` on a single digit). -/
def hexVal (c : Char) : Nat :=
  if c.toNat ≤ 57 then c.toNat - 48
  else if c.toNat ≤ 70 then c.toNat - 55
  else c.toNat - 87

/-- First pass of `url_decode` outside READABLE mode:
`_url_decode_ascii_re.sub(_url_decode, url)` with pattern
`(%[0-7][a-fA-F0-9])+`.  A maximal run of ASCII `%XX` triples is replaced
by `bytes(ords).decode('UTF-8')`; every byte of a run is < 0x80, so the
UTF-8 decode of a run is byte-wise and replacing a maximal run at once is
the same as replacing its triples one by one, which is how this scanner
walks the string. -/
def urlDecodeAscii : List Char → List Char
  | [] => []
  | c :: t =>
    if c = '%' then
      match t with
      | h1 :: h2 :: t2 =>
        if isOctDigitChar h1 ∧ isHexDigitChar h2 then
          Char.ofNat (hexVal h1 * 16 + hexVal h2) :: urlDecodeAscii t2
        else c :: urlDecodeAscii (h1 :: h2 :: t2)
      | [x] => c :: urlDecodeAscii [x]
      | [] => c :: urlDecodeAscii []
    else c :: urlDecodeAscii t

/-- Byte of `%` in ASCII. -/
def pctByte : Nat := 37

/-- `[a-fA-F89]` as a byte: first hex digit of a high byte escape. -/
def isHighHexByte (b : Nat) : Bool :=
  decide (b = 56 ∨ b = 57 ∨ (65 ≤ b ∧ b ≤ 70) ∨ (97 ≤ b ∧ b ≤ 102))

/-- `[a-fA-F0-9]` as a byte. -/
def isHexByte (b : Nat) : Bool :=
  decide ((48 ≤ b ∧ b ≤ 57) ∨ (65 ≤ b ∧ b ≤ 70) ∨ (97 ≤ b ∧ b ≤ 102))

/-- Value of a hex digit given as its ASCII byte. -/
def byteHexVal (b : Nat) : Nat :=
  if b ≤ 57 then b - 48 else if b ≤ 70 then b - 55 else b - 87

/-- Second pass of `url_decode`, on the UTF-8 bytes of the string:
`_url_decode_unicode_bytes_re.sub(_url_decode_bytes, ..)` with byte
pattern `(%[a-fA-F89][a-fA-F0-9])+`.  A maximal run of high `%XX` triples
is replaced by its raw bytes; the replacement of a run is the
concatenation of the replacements of its triples, so this scanner again
walks triple by triple. -/
def replaceHighRuns : List Nat → List Nat
  | [] => []
  | b :: t =>
    if b = pctByte then
      match t with
      | b1 :: b2 :: t2 =>
        if isHighHexByte b1 ∧ isHexByte b2 then
          (byteHexVal b1 * 16 + byteHexVal b2) :: replaceHighRuns t2
        else b :: replaceHighRuns (b1 :: b2 :: t2)
      | [x] => b :: replaceHighRuns [x]
      | [] => b :: replaceHighRuns []
    else b :: replaceHighRuns t

/-- READABLE first pass: Python `url.replace('%20', ' ')`, left-to-right
over non-overlapping occurrences. -/
def replace20 : List Char → List Char
  | [] => []
  | c :: t =>
    if c = '%' then
      match t with
      | d :: e :: t2 =>
        if d = '2' ∧ e = '0' then ' ' :: replace20 t2
        else c :: replace20 (d :: e :: t2)
      | [x] => c :: replace20 [x]
      | [] => c :: replace20 []
    else c :: replace20 t

/-- `url_decode(url, mode)`: first pass replaces `%20` (READABLE) or all
ASCII escapes (other modes); then the UTF-8 byte form has its high escape
runs replaced and the whole result is decoded as UTF-8 — on a
`UnicodeDecodeError` the first-pass string is returned unchanged. -/
def url_decode (url : List Char) (mode : Nat) : List Char :=
  let u := if mode = URL_ENCODE_READABLE then replace20 url else urlDecodeAscii url
  match utf8DecodeAll (replaceHighRuns (strToUtf8 u)) with
  | some v => v
  | none => u

/-- The shape of one input character after the first (ASCII) decode pass
has run on DATA-encoded text: an ASCII character stands decoded, a
non-ASCII character still stands as the escapes of its UTF-8 bytes. -/
def passOneChar (c : Char) : List Char :=
  if c.toNat < 128 then [c] else escTriples (utf8Bytes c)

/-- `escTriples` at the byte level (its image under UTF-8, all characters
involved being ASCII). -/
def escTriplesB (bs : List Nat) : List Nat :=
  concatMap (fun b => [pctByte, (hexUpper (b / 16)).toNat, (hexUpper (b % 16)).toNat]) bs

/-- The byte form of `passOneChar`. -/
def passOneByte (c : Char) : List Nat :=
  if c.toNat < 128 then [c.toNat] else escTriplesB (utf8Bytes c)

/-- A `%` immediately followed by a high hex digit character. -/
def isHighHexChar (c : Char) : Bool := isHighHexByte c.toNat

/-- The head of the list, if any, is not a high hex digit. -/
def headNotHighHex : List Char → Bool
  | d :: _ => !isHighHexChar d
  | [] => true

/-- No occurrence of `%` followed by a character in `[a-fA-F89]`: a
sufficient condition for the second decode pass to find no run. -/
def noHighEscape : List Char → Bool
  | [] => true
  | c :: t =>
    if c = '%' then headNotHighHex t && noHighEscape t
    else noHighEscape t

/-! ## The `Re` wrapper (MatchCursor) -/

/-- The data of a successful Python match object that the wrapper exposes:
the whole matched text (`group(0)`) and the capture groups
(`groups()`, where a group that did not participate is `None`). -/
structure ReMatchData where
  whole : List Char
  groups : List (Option (List Char))
deriving DecidableEq

/-- The wrapper `Re`: holds the pattern source and the memorized last
match (`__slots__ = ('r', 'p', 'm')`; the compiled pattern `p` has no
independent state and is not modelled). -/
structure Re where
  r : List Char
  m : Option ReMatchData
deriving DecidableEq

/-- `Re.__init__`: the match slot starts out as `None`. -/
def Re.init (pat : List Char) : Re := ⟨pat, none⟩

/-- `Re.match` / `Re.search`: stores the outcome of running the compiled
pattern (here abstracted as the resulting optional match data) and keeps
it as the current state. -/
def Re.runMatch (re : Re) (res : Option ReMatchData) : Re := ⟨re.r, res⟩

/-- `Re.__len__`: 0 with no current match, else number of capture groups
plus one. -/
def Re.length (re : Re) : Nat :=
  match re.m with
  | none => 0
  | some md => md.groups.length + 1

/-- `Re.__getitem__`: raises `IndexError` (modelled as `.error ()`) when
there is no current match, or when the group index is out of range;
otherwise returns `m.group(i)` (which is `None` for a group that did not
participate). -/
def Re.getItem (re : Re) (i : Nat) : Except Unit (Option (List Char)) :=
  match re.m with
  | none => Except.error ()
  | some md =>
    if i = 0 then Except.ok (some md.whole)
    else if h : i - 1 < md.groups.length then Except.ok (md.groups.get ⟨i - 1, h⟩)
    else Except.error ()

/-- An output item of `Re.sublist`: a piece of the original string, or an
opaque (already tokenized) value. -/
inductive SubItem (α : Type) where
  | str : List Char → SubItem α
  | tok : α → SubItem α
deriving DecidableEq

/-- The inner loop of `Re.sublist` on one string item.  `finditer` is
modelled by the given list of match spans (see `spansWF`); `repl(self)`
with the cursor positioned at the match is modelled as a function of the
span.  Unmatched text strictly between matches is emitted verbatim, and
only when non-empty (`if start > pos` / `if pos < len(item)`). -/
def sublistOne (item : List Char) (repl : Nat × Nat → SubItem α) :
    Nat → List (Nat × Nat) → List (SubItem α)
  | pos, [] =>
    if pos < item.length then [SubItem.str (item.drop pos)] else []
  | pos, (a, b) :: rest =>
    (if pos < a then [SubItem.str (listSlice item pos a)] else []) ++
      repl (a, b) :: sublistOne item repl b rest

/-- `Re.sublist(repl, list)`: strings are scanned and expanded; any
non-string item is passed through unchanged in place.  `spanf` gives the
spans that `finditer` yields on a string item. -/
def sublist (spanf : List Char → List (Nat × Nat)) (repl : Nat × Nat → SubItem α)
    (items : List (SubItem α)) : List (SubItem α) :=
  concatMap
    (fun it =>
      match it with
      | SubItem.str s => sublistOne s repl 0 (spanf s)
      | SubItem.tok a => [SubItem.tok a])
    items

/-- Well-formedness of a span list produced by `finditer` starting from
position `pos`: matches come in order, are non-overlapping and lie inside
the string. -/
def spansWF (len : Nat) : Nat → List (Nat × Nat) → Bool
  | _, [] => true
  | pos, (a, b) :: rest =>
    decide (pos ≤ a) && decide (a ≤ b) && decide (b ≤ len) && spansWF len b rest

/-- Concatenation of the string fragments of an item list (opaque items
contribute nothing). -/
def flattenStr : List (SubItem α) → List Char :=
  concatMap (fun it => match it with | SubItem.str s => s | SubItem.tok _ => [])

/-! ## LinkClassifier -/

/-- `\w` (ASCII fragment): letters, digits and underscore (code 95). -/
def isWordChar (c : Char) : Bool :=
  decide ((65 ≤ c.toNat ∧ c.toNat ≤ 90) ∨ (97 ≤ c.toNat ∧ c.toNat ≤ 122) ∨
    (48 ≤ c.toNat ∧ c.toNat ≤ 57) ∨ c.toNat = 95)

/-- `[\w\+\-\.]`: scheme tail characters, also the interwiki keyword
class `[\w+\-.]`. -/
def isSchemeChar (c : Char) : Bool :=
  isWordChar c || c = '+' || c = '-' || c = '.'

/-- `\S` (ASCII fragment): not a whitespace character. -/
def isNonSpace (c : Char) : Bool :=
  !(c = ' ' ∨ c = '\t' ∨ c = '\n' ∨ c = '\r' ∨ c.toNat = 11 ∨ c.toNat = 12)

/-- `is_url_re = Re('^(\w[\w\+\-\.]*)://')`, returning capture group 1
(the scheme).  The class excludes `:`, so the group is the maximal scheme
run and the match succeeds exactly when `://` follows it. -/
def urlSchemeOf (s : List Char) : Option (List Char) :=
  match s with
  | c :: t =>
    if isWordChar c then
      let run := t.takeWhile isSchemeChar
      if (t.drop run.length).take 3 = [':', '/', '/'] then some (c :: run) else none
    else none
  | [] => none

/-- End anchor `$` without `re.M`: end of string, or just before a final
newline. -/
def matchesEnd (l : List Char) : Bool := l = [] || l = ['\n']

/-- The optional query suffix `(\?.+)?$` after the final `\w+` of the
email pattern: nothing (up to the anchor), or `?` followed by at least
one non-newline character and then the anchor. -/
def emailQuery : List Char → Bool
  | [] => true
  | ['\n'] => true
  | c :: r =>
    c = '?' &&
      (let body := if r.getLast? = some '\n' then r.dropLast else r
       !body.isEmpty && body.all (fun x => x ≠ '\n') &&
         (r.length = body.length || r.length = body.length + 1))

/-- Part after the `@` of `is_email_re`: `\S+\.\w+(\?.+)?$`, as an
existence of a decomposition around the `.`. -/
def emailDomain (b : List Char) : Bool :=
  (splitsAround b).any fun p =>
    p.2.1 = '.' && !p.1.isEmpty && p.1.all isNonSpace &&
      (cuts p.2.2).any fun q =>
        !q.1.isEmpty && q.1.all isWordChar && emailQuery q.2

/-- Group 1 of `is_email_re`: `(mailto:\S+|[^\s:]+)`. -/
def emailLocal (a : List Char) : Bool :=
  (a.take 7 = "mailto:".toList && !(a.drop 7).isEmpty && (a.drop 7).all isNonSpace) ||
    (!a.isEmpty && a.all fun c => isNonSpace c && c ≠ ':')

/-- `is_email_re = Re('^(mailto:\S+|[^\s:]+)\@\S+\.\w+(\?.+)?$', re.U)`:
the string decomposes as group 1, `@`, and a domain part ending at the
anchor. -/
def isEmail (s : List Char) : Bool :=
  (splitsAround s).any fun p =>
    p.2.1 = '@' && emailLocal p.1 && emailDomain p.2.2

/-- `[\w\-]`: domain section characters of `is_www_link_re`. -/
def isDomainChar (c : Char) : Bool := isWordChar c || c = '-'

/-- `is_www_link_re = Re('^www\.([\w\-]+\.)+[\w\-]+')`: `www.` followed by
at least two domain sections.  The class excludes `.`, so the first
section is the maximal run after `www.` and a match exists exactly when a
`.` and one further section character follow it. -/
def isWwwLink (s : List Char) : Bool :=
  s.take 4 = "www.".toList &&
    (let r := s.drop 4
     let a := r.takeWhile isDomainChar
     !a.isEmpty &&
       match r.drop a.length with
       | '.' :: d :: _ => isDomainChar d
       | _ => false)

/-- `is_win32_share_re = Re(r'^(\\\\[^\\]+\\.+|smb://)')`: a UNC path
`\\host\share` (host non-empty without backslash, then a backslash, then
at least one non-newline character) or the literal prefix `smb://`. -/
def isWin32Share (s : List Char) : Bool :=
  (s.take 6 = "smb://".toList) ||
    (match s with
     | '\\' :: '\\' :: rest =>
       (splitsAround rest).any fun p =>
         p.2.1 = '\\' && !p.1.isEmpty && p.1.all (fun c => c ≠ '\\') &&
           (match p.2.2 with
            | d :: _ => d ≠ '\n'
            | [] => false)
     | _ => false)

/-- `is_path_re = Re(r'^(/|\.\.?[/\\]|~.*[/\\]|[A-Za-z]:\\)')`:
`/`, `./` `.\` `../` `..\`, `~...(/ or \)`, or a drive letter `X:\`. -/
def isPath (s : List Char) : Bool :=
  match s with
  | '/' :: _ => true
  | '.' :: '.' :: d :: _ => d = '/' || d = '\\'
  | '.' :: d :: _ => d = '/' || d = '\\'
  | '~' :: r =>
    (splitsAround r).any fun p =>
      (p.2.1 = '/' || p.2.1 = '\\') && p.1.all (fun c => c ≠ '\n')
  | c :: ':' :: '\\' :: _ =>
    decide ((65 ≤ c.toNat ∧ c.toNat ≤ 90) ∨ (97 ≤ c.toNat ∧ c.toNat ≤ 122))
  | _ => false

/-- `is_interwiki_re = Re('^(\w[\w\+\-\.]*)\?(.*)', re.U)`: a keyword then
`?`; the class excludes `?`, so the keyword is the maximal run.  `(.*)`
always matches. -/
def isInterwiki (s : List Char) : Bool :=
  match s with
  | c :: t =>
    isWordChar c &&
      (match t.drop (t.takeWhile isSchemeChar).length with
       | '?' :: _ => true
       | _ => false)
  | [] => false

/-- `link_type(link)`: the classifier cascade, first match wins. -/
def link_type (link : List Char) : List Char :=
  match urlSchemeOf link with
  | some scheme =>
    if link.take 4 = "zim+".toList then "notebook".toList else scheme
  | none =>
    if link.take 6 = "file:/".toList then "file".toList
    else if isEmail link then "mailto".toList
    else if isWwwLink link then "http".toList
    else if link.contains '@' &&
        (link.take 4 = "mid:".toList || link.take 4 = "cid:".toList) then
      link.take 3
    else if isWin32Share link then "smb".toList
    else if isPath link then "file".toList
    else if isInterwiki link then "interwiki".toList
    else "page".toList

/-! ## `valid_interwiki_key` -/

/-- `valid_interwiki_key(name)`:
`re.sub('[^\w+\-.]', '_', name)` replaces every character outside the
keyword class with `_`; then a leading `-` or `.` is replaced by `_`.
`key[0]` raises `IndexError` on an empty key, modelled as `.error ()`. -/
def valid_interwiki_key (name : List Char) : Except Unit (List Char) :=
  let key := name.map (fun c => if isSchemeChar c then c else '_')
  match key with
  | [] => Except.error ()
  | k0 :: rest =>
    if k0 = '-' ∨ k0 = '.' then Except.ok ('_' :: rest)
    else Except.ok (k0 :: rest)

/-! ## DateParser -/

/-- `\d` (ASCII fragment). -/
def isDigitChar (c : Char) : Bool := decide (48 ≤ c.toNat ∧ c.toNat ≤ 57)

/-- Numeric value of a digit string (`int(..)`). -/
def toNatDigits (ds : List Char) : Nat :=
  ds.foldl (fun a c => a * 10 + (c.toNat - 48)) 0

/-- Year normalization of `parse_date`: `< 50` gains 2000, `< 1000` gains
1900, otherwise unchanged. -/
def normYear (v : Nat) : Nat :=
  if v < 50 then v + 2000 else if v < 1000 then v + 1900 else v

/-- One attempt of `_parse_date_re = (\d{1,4})\D(\d{1,2})(?:\D(\d{1,4}))?`
at the current position.  `\d{1,4}` is greedy and `\D` refuses a digit, so
the first group must be the whole digit run here (no match if the run
exceeds 4); the second group is the following run capped at 2 digits; the
optional part matches when a non-digit and then at least one digit follow,
the third group being that run capped at 4 digits. -/
def matchDateAt (s : List Char) : Option (List Char × List Char × Option (List Char)) :=
  let d := s.takeWhile isDigitChar
  if d.isEmpty || d.length > 4 then none
  else
    match s.drop d.length with
    | [] => none
    | _sep :: rest =>
      let mrun := rest.takeWhile isDigitChar
      if mrun.isEmpty then none
      else
        let mm := mrun.take 2
        match rest.drop mm.length with
        | [] => some (d, mm, none)
        | sep2 :: rest2 =>
          if isDigitChar sep2 then some (d, mm, none)
          else
            let y := rest2.takeWhile isDigitChar
            if y.isEmpty then some (d, mm, none)
            else some (d, mm, some (y.take 4))

/-- `re.search` for the date pattern: leftmost position with a match. -/
def searchDate : List Char → Option (List Char × List Char × Option (List Char))
  | [] => none
  | c :: t =>
    match matchDateAt (c :: t) with
    | some r => some r
    | none => searchDate t

/-- `parse_date(string)`: groups are day-month[-year], reinterpreted as
year-month-day when the first captured number has 4 digits; a missing day
yields `None`; a missing year is guessed from `today = (year, month)`
(`date.today()` in the source, passed as a parameter here): next year when
`today.month - int(m) >= 6`, else the current year; an explicit year is
normalized with `normYear`. -/
def parse_date (today : Nat × Nat) (s : List Char) : Option (Nat × Nat × Nat) :=
  match searchDate s with
  | none => none
  | some (d, m, y) =>
    if d.length = 4 then
      match y with
      | none => none
      | some y2 => some (normYear (toNatDigits d), toNatDigits m, toNatDigits y2)
    else
      match y with
      | none =>
        let yv : Nat :=
          if (today.2 : Int) - (toNatDigits m : Int) ≥ 6 then today.1 + 1 else today.1
        some (yv, toNatDigits m, toNatDigits d)
      | some y2 => some (normYear (toNatDigits y2), toNatDigits m, toNatDigits d)

/-! # Theorems -/

/-! ## Generic helper lemmas -/

theorem concatMap_append (f : α → List β) (l1 l2 : List α) :
    concatMap f (l1 ++ l2) = concatMap f l1 ++ concatMap f l2 := by
  induction l1 with
  | nil => rfl
  | cons a l ih => simp [concatMap, ih]

theorem listSlice_append_drop (l : List Char) (p q : Nat) (h : p ≤ q) :
    listSlice l p q ++ l.drop q = l.drop p := by
  have h2 : l.drop q = (l.drop p).drop (q - p) := by
    rw [List.drop_drop]; congr 1; omega
  rw [listSlice, h2, List.take_append_drop]

/-! ## EscapeCodec lemmas (C3) -/

theorem unescape_not_backslash (c : Char) (t : List Char) (h : c ≠ '\\') :
    unescape_string (c :: t) = c :: unescape_string t := by
  conv_lhs => rw [unescape_string.eq_def]
  exact if_neg h

theorem unescape_pair (d : Char) (t : List Char) (h : d ≠ '\n') :
    unescape_string ('\\' :: d :: t) = unescChar d :: unescape_string t := by
  have e : unescape_string ('\\' :: d :: t) =
      if d = '\n' then '\\' :: unescape_string (d :: t)
      else unescChar d :: unescape_string t := rfl
  rw [e, if_neg h]

theorem escapeClassRanges_backslash (chars : List Char) (rs : List (Nat × Nat))
    (hp : escapeClassRanges chars = some rs) : escapeClassMember rs '\\' = true := by
  have hx : ∃ hi rest, rs = (92, hi) :: rest ∧ 92 ≤ hi := by
    cases chars with
    | nil =>
      rw [show escapeClassRanges [] = some [(92, 92)] from rfl] at hp
      exact ⟨92, [], (Option.some.inj hp).symm, le_refl 92⟩
    | cons c rest =>
      cases rest with
      | nil =>
        have e : escapeClassRanges [c] =
            if c = '-' then some [(92, 92), (45, 45)]
            else (classItems [c]).map (fun r => (92, 92) :: r) := rfl
        rw [e] at hp
        by_cases hc : c = '-'
        · rw [if_pos hc] at hp
          exact ⟨92, [(45, 45)], (Option.some.inj hp).symm, le_refl 92⟩
        · rw [if_neg hc] at hp
          rcases hq : classItems [c] with _ | r
          · rw [hq] at hp; exact absurd hp (by simp)
          · rw [hq, Option.map_some'] at hp
            exact ⟨92, r, (Option.some.inj hp).symm, le_refl 92⟩
      | cons y rest2 =>
        have e : escapeClassRanges (c :: y :: rest2) =
            if c = '-' then
              if 92 ≤ y.toNat then (classItems rest2).map (fun r => (92, y.toNat) :: r)
              else none
            else (classItems (c :: y :: rest2)).map (fun r => (92, 92) :: r) := rfl
        rw [e] at hp
        by_cases hc : c = '-'
        · rw [if_pos hc] at hp
          by_cases hy : 92 ≤ y.toNat
          · rw [if_pos hy] at hp
            rcases hq : classItems rest2 with _ | r
            · rw [hq] at hp; exact absurd hp (by simp)
            · rw [hq, Option.map_some'] at hp
              exact ⟨y.toNat, r, (Option.some.inj hp).symm, hy⟩
          · rw [if_neg hy] at hp
            exact absurd hp (by simp)
        · rw [if_neg hc] at hp
          rcases hq : classItems (c :: y :: rest2) with _ | r
          · rw [hq] at hp; exact absurd hp (by simp)
          · rw [hq, Option.map_some'] at hp
            exact ⟨92, r, (Option.some.inj hp).symm, le_refl 92⟩
  obtain ⟨hi, rest, hrs, hhi⟩ := hx
  rw [hrs, escapeClassMember, List.any_cons, Bool.or_eq_true]
  left
  rw [decide_eq_true_eq]
  constructor
  · rfl
  · exact hhi

theorem unescape_escapeMatched (rs : List (Nat × Nat)) (s : List Char)
    (hbs : escapeClassMember rs '\\' = true)
    (hn : escapeClassMember rs 'n' = false)
    (ht : escapeClassMember rs 't' = false)
    (hs : '\r' ∉ s) :
    unescape_string (concatMap (escapeMatchedChar rs) s) = s := by
  induction s with
  | nil => rfl
  | cons c t ih =>
    have hcr2 : c ≠ '\r' := by
      intro h; exact hs (h ▸ List.mem_cons_self c t)
    have ih2 := ih (fun h => hs (List.mem_cons_of_mem c h))
    show unescape_string (escapeMatchedChar rs c ++ concatMap (escapeMatchedChar rs) t) = c :: t
    by_cases h1 : c = '\n'
    · subst h1
      rw [show escapeMatchedChar rs '\n' = ['\\', 'n'] from by
          rw [escapeMatchedChar, if_pos (Or.inl rfl)]; decide,
        List.cons_append, List.cons_append, List.nil_append,
        unescape_pair 'n' _ (by decide), ih2,
        show unescChar 'n' = '\n' from by decide]
    · by_cases h3 : c = '\t'
      · subst h3
        rw [show escapeMatchedChar rs '\t' = ['\\', 't'] from by
            rw [escapeMatchedChar, if_pos (Or.inr (Or.inr (Or.inl rfl)))]; decide,
          List.cons_append, List.cons_append, List.nil_append,
          unescape_pair 't' _ (by decide), ih2,
          show unescChar 't' = '\t' from by decide]
      · by_cases h4 : c = '\\'
        · subst h4
          rw [show escapeMatchedChar rs '\\' = ['\\', '\\'] from by
              rw [escapeMatchedChar, if_pos (Or.inr (Or.inr (Or.inr hbs)))]; decide,
            List.cons_append, List.cons_append, List.nil_append,
            unescape_pair '\\' _ (by decide), ih2,
            show unescChar '\\' = '\\' from by decide]
        · by_cases hm : escapeClassMember rs c = true
          · have hne : c ≠ 'n' := fun h => by rw [h, hn] at hm; exact absurd hm (by simp)
            have hte : c ≠ 't' := fun h => by rw [h, ht] at hm; exact absurd hm (by simp)
            rw [show escapeMatchedChar rs c = ['\\', c] from by
                rw [escapeMatchedChar, if_pos (Or.inr (Or.inr (Or.inr hm))), escapeMatch,
                  if_neg h1, if_neg hcr2, if_neg h3],
              List.cons_append, List.cons_append, List.nil_append,
              unescape_pair c _ h1, ih2,
              show unescChar c = c from by rw [unescChar, if_neg hne, if_neg hte]]
          · have hnb : c ≠ '\\' := fun h => by rw [h, hbs] at hm; exact hm rfl
            rw [show escapeMatchedChar rs c = [c] from by
                rw [escapeMatchedChar, if_neg (by tauto)],
              List.cons_append, List.nil_append,
              unescape_not_backslash c _ hnb, ih2]

/-- C3 counterexample: the claim fails in two ways.  At `T = "\r"`,
`C = {}`: `escape_string` escapes a carriage return to backslash-`r`, but
`unescape_string` maps backslash-`r` to the letter `r` (its `_unescape`
only recognizes `n` and `t`).  And at `T = "n"`, `C = "a-z"` (allowed by
the claim, which only excludes backslash, newline, carriage return and
tab from C): the characters of C are interpolated into a regex character
class, so `a-z` is a range covering `n`; `n` is escaped to backslash-`n`,
which unescapes to a newline. -/
theorem c3_counterexample :
    (escape_string ("\r".toList) []).map unescape_string = some ("r".toList) ∧
    (escape_string ("\r".toList) []).map unescape_string ≠ some ("\r".toList) ∧
    (escape_string ("n".toList) ("a-z".toList)).map unescape_string = some ("\n".toList) ∧
    (escape_string ("n".toList) ("a-z".toList)).map unescape_string ≠ some ("n".toList) := by
  refine ⟨by decide, by decide, by decide, by decide⟩

/-- C3 (amended): for every text without a carriage return and every
extra-character set C — interpolated by the source into a regex character
class, so that `-` forms ranges — that contains none of backslash,
newline, carriage return, tab, or `]`, whose interpolation parses (no
reversed range, `escapeClassRanges` returns some intervals) and whose
parsed class matches neither the letter `n` nor the letter `t`,
unescaping after escaping restores the text exactly (newlines, tabs,
backslashes and class members included). -/
theorem c3_escape_unescape_roundtrip (s chars : List Char) (rs : List (Nat × Nat))
    (hs : '\r' ∉ s)
    (hp : escapeClassRanges chars = some rs)
    (hn : escapeClassMember rs 'n' = false)
    (ht : escapeClassMember rs 't' = false)
    (hbr : ']' ∉ chars) (hb : '\\' ∉ chars)
    (hnl : '\n' ∉ chars) (hcr : '\r' ∉ chars) (htb : '\t' ∉ chars) :
    (escape_string s chars).map unescape_string = some s := by
  rw [escape_string, hp, Option.map_some', Option.map_some',
    unescape_escapeMatched rs s (escapeClassRanges_backslash chars rs hp) hn ht hs]

/-- C3 witness: the round trip restores a concrete text containing a
newline, a tab, a backslash and a member of the extra set `{','}`, whose
class parses to the backslash and comma intervals. -/
theorem c3_witness :
    ('\r' ∉ ("a\n\tb\\c,d".toList) ∧
      escapeClassRanges [','] = some [(92, 92), (44, 44)] ∧
      escapeClassMember [(92, 92), (44, 44)] 'n' = false ∧
      escapeClassMember [(92, 92), (44, 44)] 't' = false ∧
      ']' ∉ [','] ∧ '\\' ∉ [','] ∧ '\n' ∉ [','] ∧ '\r' ∉ [','] ∧ '\t' ∉ [',']) ∧
    (escape_string ("a\n\tb\\c,d".toList) [',']).map unescape_string =
      some ("a\n\tb\\c,d".toList) :=
  ⟨by decide,
    c3_escape_unescape_roundtrip ("a\n\tb\\c,d".toList) [','] [(92, 92), (44, 44)]
      (by decide) (by decide) (by decide) (by decide) (by decide) (by decide) (by decide)
      (by decide) (by decide)⟩

/-! ## split_escaped_string lemmas (C6) -/

theorem splitOnChar_ne_nil (c : Char) (s : List Char) : splitOnChar c s ≠ [] := by
  cases s with
  | nil => simp [splitOnChar]
  | cons x t =>
    simp only [splitOnChar]
    split
    · simp
    · cases h : splitOnChar c t <;> simp

theorem joinSep_splitOnChar (c : Char) (s : List Char) :
    joinSep c (splitOnChar c s) = s := by
  induction s with
  | nil => rfl
  | cons x t ih =>
    simp only [splitOnChar]
    by_cases h : x = c
    · rw [if_pos h]
      rcases hs : splitOnChar c t with _ | ⟨p, rest⟩
      · exact absurd hs (splitOnChar_ne_nil c t)
      · rw [hs] at ih
        simp only [joinSep, List.nil_append]
        rw [ih, h]
    · rw [if_neg h]
      rcases hs : splitOnChar c t with _ | ⟨p, rest⟩
      · exact absurd hs (splitOnChar_ne_nil c t)
      · rw [hs] at ih
        cases rest with
        | nil => simp only [joinSep] at ih ⊢; rw [ih]
        | cons q r =>
          simp only [joinSep] at ih ⊢
          rw [List.cons_append, ih]

theorem joinSep_cons_of_ne_nil (c : Char) (cur : List Char) (L : List (List Char))
    (h : L ≠ []) : joinSep c (cur :: L) = cur ++ c :: joinSep c L := by
  cases L with
  | nil => exact absurd rfl h
  | cons q r => rfl

theorem mergeEscapedPieces_ne_nil (c : Char) :
    ∀ (pieces : List (List Char)) (cur : List Char) (flag : Bool),
      mergeEscapedPieces c cur flag pieces ≠ [] := by
  intro pieces
  induction pieces with
  | nil => intro cur flag; simp [mergeEscapedPieces]
  | cons q rest ih =>
    intro cur flag
    simp only [mergeEscapedPieces]
    split
    · exact ih _ _
    · simp

theorem joinSep_mergeEscapedPieces (c : Char) (pieces : List (List Char)) :
    ∀ cur flag, joinSep c (mergeEscapedPieces c cur flag pieces) = joinSep c (cur :: pieces) := by
  induction pieces with
  | nil => intro cur flag; rfl
  | cons q rest ih =>
    intro cur flag
    simp only [mergeEscapedPieces]
    by_cases hf : flag
    · rw [if_pos hf, ih]
      cases rest with
      | nil => simp [joinSep]
      | cons r rs => simp [joinSep]
    · rw [if_neg hf]
      cases rest with
      | nil => simp [mergeEscapedPieces, joinSep]
      | cons r rs =>
        rw [joinSep_cons_of_ne_nil c cur _ (mergeEscapedPieces_ne_nil c _ q _),
          ih q (oddTrailingBackslash q)]
        rfl

/-- C6: `split_escaped_string` keeps a separator preceded by an odd
number of backslashes inside the piece (re-inserting the separator),
rejoining transitively over consecutive escaped separators, and splits at
separators preceded by an even number of backslashes; witnessed by the
examples below, and re-joining the pieces with the separator always
reconstructs the input string. -/
theorem c6_split_escaped_string :
    split_escaped_string ("a\\,b,c".toList) ',' = ["a\\,b".toList, "c".toList] ∧
    split_escaped_string ("a\\\\,b".toList) ',' = ["a\\\\".toList, "b".toList] ∧
    split_escaped_string ("a\\\\\\,b".toList) ',' = ["a\\\\\\,b".toList] ∧
    split_escaped_string ("a\\,b\\,c,d".toList) ',' = ["a\\,b\\,c".toList, "d".toList] ∧
    ∀ (s : List Char) (c : Char), joinSep c (split_escaped_string s c) = s := by
  refine ⟨by decide, by decide, by decide, by decide, ?_⟩
  intro s c
  unfold split_escaped_string
  rcases hs : splitOnChar c s with _ | ⟨p, rest⟩
  · exact absurd hs (splitOnChar_ne_nil c s)
  · rw [joinSep_mergeEscapedPieces]
    have h2 := joinSep_splitOnChar c s
    rw [hs] at h2
    exact h2

/-! ## Re wrapper state lemmas (C8) -/

/-- C8: with no current match (a fresh instance starts with none, and a
failed match/search stores none), indexed access fails with an index
error for every index and `__len__` is 0; after a successful match
`__len__` is the number of capture groups plus one. -/
theorem c8_re_state_access :
    (∀ pat : List Char, (Re.init pat).m = none) ∧
    (∀ re : Re, (re.runMatch none).m = none) ∧
    (∀ re : Re, re.m = none → (∀ i : Nat, re.getItem i = Except.error ()) ∧ re.length = 0) ∧
    (∀ (re : Re) (md : ReMatchData), re.m = some md →
      re.length = md.groups.length + 1) := by
  refine ⟨fun _ => rfl, fun _ => rfl, ?_, ?_⟩
  · intro re h
    constructor
    · intro i
      rw [Re.getItem, h]
    · rw [Re.length, h]
  · intro re md h
    rw [Re.length, h]

/-- C8 witness: a fresh instance, a failed search, indexed access and
lengths at concrete values. -/
theorem c8_witness :
    ((Re.init ("ab".toList)).m = none ∧
      ((Re.init ("ab".toList)).runMatch none).m = none) ∧
    (Re.init ("ab".toList)).getItem 2 = Except.error () ∧
    (Re.init ("ab".toList)).length = 0 ∧
    ((Re.init ("ab".toList)).runMatch
        (some ⟨"xy".toList, [some ("x".toList), none]⟩)).length = 3 := by
  refine ⟨⟨rfl, rfl⟩, ?_, ?_, ?_⟩
  · exact ((c8_re_state_access.2.2.1 _ rfl).1) 2
  · exact (c8_re_state_access.2.2.1 _ rfl).2
  · exact c8_re_state_access.2.2.2 _ ⟨"xy".toList, [some ("x".toList), none]⟩ rfl

/-! ## valid_interwiki_key lemmas (C10) -/

/-- C10: `valid_interwiki_key` fails with an index error on the empty
string; on every non-empty input it returns a non-empty key of the same
length whose characters all lie in the keyword class (word characters,
`+`, `-`, `.`) and whose first character is neither `-` nor `.`. -/
theorem c10_valid_interwiki_key :
    valid_interwiki_key [] = Except.error () ∧
    ∀ name : List Char, name ≠ [] →
      ∃ k : List Char, valid_interwiki_key name = Except.ok k ∧
        k ≠ [] ∧ k.length = name.length ∧ (∀ c ∈ k, isSchemeChar c) ∧
        k.head? ≠ some '-' ∧ k.head? ≠ some '.' := by
  constructor
  · rfl
  · intro name hne
    rcases name with _ | ⟨n0, rest⟩
    · exact absurd rfl hne
    · have hmem : ∀ c : Char,
          isSchemeChar (if isSchemeChar c then c else '_') = true := by
        intro c
        by_cases h : isSchemeChar c
        · rw [if_pos h]; exact h
        · rw [if_neg h]; decide
      set f : Char → Char := fun c => if isSchemeChar c then c else '_' with hf
      have e : valid_interwiki_key (n0 :: rest) =
          if f n0 = '-' ∨ f n0 = '.' then Except.ok ('_' :: rest.map f)
          else Except.ok (f n0 :: rest.map f) := rfl
      by_cases hc : f n0 = '-' ∨ f n0 = '.'
      · refine ⟨'_' :: rest.map f, ?_, by simp, by simp, ?_,
          by rw [List.head?_cons]; decide, by rw [List.head?_cons]; decide⟩
        · rw [e, if_pos hc]
        · intro c hcm
          rcases List.mem_cons.mp hcm with h | h
          · subst h; decide
          · rcases List.mem_map.mp h with ⟨a, _, ha⟩
            rw [← ha]; exact hmem a
      · push_neg at hc
        refine ⟨f n0 :: rest.map f, ?_, by simp, by simp, ?_, ?_, ?_⟩
        · rw [e, if_neg (by tauto)]
        · intro c hcm
          rcases List.mem_cons.mp hcm with h | h
          · subst h; exact hmem n0
          · rcases List.mem_map.mp h with ⟨a, _, ha⟩
            rw [← ha]; exact hmem a
        · simpa using hc.1
        · simpa using hc.2

/-- C10 witness: instantiated at a concrete non-empty name with a leading
`-` and an interior `.`. -/
theorem c10_witness :
    ("-bad.key".toList ≠ []) ∧
    (∃ k : List Char, valid_interwiki_key ("-bad.key".toList) = Except.ok k ∧
      k ≠ [] ∧ k.length = ("-bad.key".toList).length ∧ (∀ c ∈ k, isSchemeChar c) ∧
      k.head? ≠ some '-' ∧ k.head? ≠ some '.') :=
  ⟨by decide, c10_valid_interwiki_key.2 _ (by decide)⟩

/-! ## parse_date lemmas (C9) -/

/-- C9: whenever the date pattern matches with an explicit third number
(so the day is present), the returned year is the captured year value
normalized by adding 2000 below 50 and 1900 between 50 and 999 and kept
as is from 1000 on, where the year is the first captured number exactly
when it has 4 digits (year-month-day order) and the third one otherwise
(day-month-year order). -/
theorem c9_parse_date_explicit_year (s d m y : List Char) (today : Nat × Nat)
    (h : searchDate s = some (d, m, some y)) :
    parse_date today s =
      some
        (let yv := toNatDigits (if d.length = 4 then d else y)
         ((if yv < 50 then yv + 2000 else if yv < 1000 then yv + 1900 else yv),
          toNatDigits m,
          toNatDigits (if d.length = 4 then y else d))) := by
  simp only [parse_date, h]
  by_cases h4 : d.length = 4 <;> simp [h4, normYear]

/-- C9 witness: a concrete day-month-year date with a two-digit year
below 50, which gains 2000. -/
theorem c9_witness :
    searchDate ("15-03-24".toList) =
      some ("15".toList, "03".toList, some ("24".toList)) ∧
    parse_date (2026, 10) ("15-03-24".toList) = some (2024, 3, 15) := by
  refine ⟨by decide, ?_⟩
  exact (c9_parse_date_explicit_year ("15-03-24".toList) ("15".toList) ("03".toList)
    ("24".toList) (2026, 10) (by decide)).trans (by decide)

/-! ## link_type (C4) -/

/-- C4: `link_type` applies its recognizers in the cascade order of the
source and returns the tag of the first that applies; one concrete input
per branch, in branch order: anchored `scheme://` URL (scheme tag, `zim+`
collapsing to `notebook`), literal prefix `file:/`, email, bare `www.`,
`@`-containing `mid:`/`cid:` (3-character prefix), Windows share,
filesystem path, interwiki, and the default `page`; the claim's five
examples included. -/
theorem c4_link_type :
    link_type ("mailto:foo@bar.com".toList) = "mailto".toList ∧
    link_type ("www.example.com".toList) = "http".toList ∧
    link_type ("../foo/bar".toList) = "file".toList ∧
    link_type ("SomeWikiPage".toList) = "page".toList ∧
    link_type ("wp?Some_Page".toList) = "interwiki".toList ∧
    link_type ("http://example.org/foo".toList) = "http".toList ∧
    link_type ("zim+file://home/notebook".toList) = "notebook".toList ∧
    link_type ("file:/foo/bar".toList) = "file".toList ∧
    link_type ("mid:x@y".toList) = "mid".toList ∧
    link_type ("cid:x@y".toList) = "cid".toList ∧
    link_type ("\\\\host\\share".toList) = "smb".toList ∧
    link_type ("smb://host/share".toList) = "smb".toList ∧
    link_type ("~/docs/x".toList) = "file".toList ∧
    link_type ("/etc/fstab".toList) = "file".toList := by
  decide

/-! ## Re.sublist lemmas (C7) -/

theorem sublistOne_no_empty {α : Type} (item : List Char) (repl : Nat × Nat → SubItem α) :
    ∀ (spans : List (Nat × Nat)) (pos : Nat),
      spansWF item.length pos spans = true →
      (∀ p : Nat × Nat, repl p ≠ SubItem.str []) →
      SubItem.str [] ∉ sublistOne item repl pos spans := by
  intro spans
  induction spans with
  | nil =>
    intro pos _ _
    simp only [sublistOne]
    split
    · rename_i hlt
      intro hmem
      have h := List.mem_singleton.mp hmem
      have he : item.drop pos = [] := SubItem.str.inj h.symm
      rw [List.drop_eq_nil_iff] at he
      omega
    · simp
  | cons ab rest ih =>
    rcases ab with ⟨a, b⟩
    intro pos hwf hr
    simp only [spansWF, Bool.and_eq_true, decide_eq_true_eq] at hwf
    obtain ⟨⟨⟨h1, h2⟩, h3⟩, h4⟩ := hwf
    simp only [sublistOne, List.mem_append, List.mem_cons]
    intro hmem
    rcases hmem with hin | hrepl | hrec
    · revert hin
      split
      · rename_i hlt
        intro hin
        have h := List.mem_singleton.mp hin
        have he : listSlice item pos a = [] := SubItem.str.inj h.symm
        rw [listSlice, List.take_eq_nil_iff] at he
        rcases he with he | he
        · omega
        · rw [List.drop_eq_nil_iff] at he; omega
      · simp
    · exact hr (a, b) hrepl.symm
    · exact ih b h4 hr hrec

theorem sublistOne_flatten {α : Type} (item : List Char) :
    ∀ (spans : List (Nat × Nat)) (pos : Nat),
      spansWF item.length pos spans = true →
      flattenStr (α := α)
        (sublistOne item (fun p => SubItem.str (listSlice item p.1 p.2)) pos spans) =
        item.drop pos := by
  intro spans
  induction spans with
  | nil =>
    intro pos _
    simp only [sublistOne]
    split
    · simp [flattenStr, concatMap]
    · rename_i hge
      simp only [flattenStr, concatMap]
      symm
      rw [List.drop_eq_nil_iff]
      omega
  | cons ab rest ih =>
    rcases ab with ⟨a, b⟩
    intro pos hwf
    simp only [spansWF, Bool.and_eq_true, decide_eq_true_eq] at hwf
    obtain ⟨⟨⟨h1, h2⟩, h3⟩, h4⟩ := hwf
    have ih2 := ih b h4
    simp only [flattenStr] at ih2 ⊢
    have e : sublistOne item (fun p => SubItem.str (listSlice item p.1 p.2)) pos ((a, b) :: rest) =
        (if pos < a then [SubItem.str (listSlice item pos a)] else ([] : List (SubItem α))) ++
          SubItem.str (listSlice item a b) ::
            sublistOne item (fun p => SubItem.str (listSlice item p.1 p.2)) b rest := rfl
    rw [e]
    by_cases hlt : pos < a
    · rw [if_pos hlt]
      simp only [concatMap_append, concatMap, List.append_nil]
      rw [ih2, listSlice_append_drop item a b h2, listSlice_append_drop item pos a h1]
    · rw [if_neg hlt]
      simp only [concatMap_append, concatMap, List.append_nil, List.nil_append]
      rw [ih2, listSlice_append_drop item a b h2]
      have : pos = a := by omega
      rw [this]

/-- C7: `Re.sublist` passes non-string items through unchanged in their
place, never emits a zero-length string fragment (when the substitution
function does not itself produce one), and the unmatched substrings are
preserved verbatim in input order around the matched spans: replacing
every matched span by its own text reconstructs each string item
exactly. -/
theorem c7_sublist_tokenize :
    (∀ (α : Type) (spanf : List Char → List (Nat × Nat)) (repl : Nat × Nat → SubItem α)
      (xs : List (SubItem α)) (a : α) (ys : List (SubItem α)),
      sublist spanf repl (xs ++ SubItem.tok a :: ys) =
        sublist spanf repl xs ++ SubItem.tok a :: sublist spanf repl ys) ∧
    (∀ (α : Type) (item : List Char) (repl : Nat × Nat → SubItem α)
      (spans : List (Nat × Nat)) (pos : Nat),
      spansWF item.length pos spans = true →
      (∀ p : Nat × Nat, repl p ≠ SubItem.str []) →
      SubItem.str [] ∉ sublistOne item repl pos spans) ∧
    (∀ (α : Type) (item : List Char) (spans : List (Nat × Nat)) (pos : Nat),
      spansWF item.length pos spans = true →
      flattenStr (α := α)
        (sublistOne item (fun p => SubItem.str (listSlice item p.1 p.2)) pos spans) =
        item.drop pos) := by
  refine ⟨?_, ?_, ?_⟩
  · intro α spanf repl xs a ys
    simp [sublist, concatMap_append, concatMap]
  · intro α item repl spans pos hwf hr
    exact sublistOne_no_empty item repl spans pos hwf hr
  · intro α item spans pos hwf
    exact sublistOne_flatten item spans pos hwf

/-- C7 witness: one match span inside a concrete string item; no empty
fragment appears and the identity substitution reconstructs the item. -/
theorem c7_witness :
    (spansWF (("ab@cd".toList).length) 0 [(2, 3)] = true ∧
      (∀ p : Nat × Nat, (fun _ => SubItem.tok 0 : Nat × Nat → SubItem Nat) p ≠ SubItem.str [])) ∧
    SubItem.str [] ∉ sublistOne ("ab@cd".toList) (fun _ => SubItem.tok (0 : Nat)) 0 [(2, 3)] ∧
    flattenStr (α := Nat)
        (sublistOne ("ab@cd".toList)
          (fun p => SubItem.str (listSlice ("ab@cd".toList) p.1 p.2)) 0 [(2, 3)]) =
      ("ab@cd".toList).drop 0 := by
  refine ⟨⟨by decide, fun p h => SubItem.noConfusion h⟩, ?_, ?_⟩
  · exact c7_sublist_tokenize.2.1 Nat ("ab@cd".toList) _ [(2, 3)] 0 (by decide)
      (fun p h => SubItem.noConfusion h)
  · exact c7_sublist_tokenize.2.2 Nat ("ab@cd".toList) [(2, 3)] 0 (by decide)

/-! ## PercentCodec lemmas: hex digits -/

theorem hexUpper_ne_pct (n : Nat) (h : n < 16) : hexUpper n ≠ '%' := by
  interval_cases n <;> decide

theorem hexUpper_toNat_lt (n : Nat) (h : n < 16) : (hexUpper n).toNat < 128 := by
  interval_cases n <;> decide

theorem hexUpper_oct (n : Nat) (h : n ≤ 7) : isOctDigitChar (hexUpper n) = true := by
  interval_cases n <;> decide

theorem hexUpper_not_oct (n : Nat) (h1 : 8 ≤ n) (h2 : n < 16) :
    isOctDigitChar (hexUpper n) = false := by
  interval_cases n <;> decide

theorem hexUpper_hexDigit (n : Nat) (h : n < 16) : isHexDigitChar (hexUpper n) = true := by
  interval_cases n <;> decide

theorem hexVal_hexUpper (n : Nat) (h : n < 16) : hexVal (hexUpper n) = n := by
  interval_cases n <;> decide

theorem hexUpper_highHexByte (n : Nat) (h1 : 8 ≤ n) (h2 : n < 16) :
    isHighHexByte (hexUpper n).toNat = true := by
  interval_cases n <;> decide

theorem hexUpper_hexByte (n : Nat) (h : n < 16) : isHexByte (hexUpper n).toNat = true := by
  interval_cases n <;> decide

theorem byteHexVal_hexUpper (n : Nat) (h : n < 16) : byteHexVal (hexUpper n).toNat = n := by
  interval_cases n <;> decide

/-! ## Character and UTF-8 facts -/

theorem char_toNat_lt (c : Char) : c.toNat < 1114112 := by
  have h : c.toNat < 55296 ∨ (57343 < c.toNat ∧ c.toNat < 1114112) := c.valid
  omega

theorem char_eq_pct_of_toNat (c : Char) (h : c.toNat = 37) : c = '%' := by
  have h2 : Char.ofNat c.toNat = c := Char.ofNat_toNat c
  rw [h] at h2
  rw [← h2]

theorem toNat_ne_of_ne_pct (c : Char) (h : c ≠ '%') : c.toNat ≠ 37 :=
  fun he => h (char_eq_pct_of_toNat c he)

theorem utf8Bytes_low (c : Char) (h : c.toNat < 128) : utf8Bytes c = [c.toNat] := by
  rw [utf8Bytes, utf8EncodeNat, if_pos h]

theorem utf8EncodeNat_bounds (v : Nat) (h1 : 128 ≤ v) (h2 : v < 1114112) :
    ∀ b ∈ utf8EncodeNat v, 128 ≤ b ∧ b < 256 := by
  intro b hb
  rw [utf8EncodeNat, if_neg (by omega)] at hb
  by_cases hv2 : v < 2048
  · rw [if_pos hv2] at hb
    simp only [List.mem_cons, List.not_mem_nil, or_false] at hb
    rcases hb with h | h <;> subst h <;> constructor <;> omega
  · rw [if_neg hv2] at hb
    by_cases hv3 : v < 65536
    · rw [if_pos hv3] at hb
      simp only [List.mem_cons, List.not_mem_nil, or_false] at hb
      rcases hb with h | h | h <;> subst h <;> constructor <;> omega
    · rw [if_neg hv3] at hb
      simp only [List.mem_cons, List.not_mem_nil, or_false] at hb
      rcases hb with h | h | h | h <;> subst h <;> constructor <;> omega

theorem utf8Bytes_bounds (c : Char) (h : 128 ≤ c.toNat) :
    ∀ b ∈ utf8Bytes c, 128 ≤ b ∧ b < 256 :=
  utf8EncodeNat_bounds c.toNat h (char_toNat_lt c)

theorem utf8Bytes_head_high (c : Char) (h : 128 ≤ c.toNat) :
    ∃ b bs, utf8Bytes c = b :: bs ∧ 194 ≤ b ∧ b < 256 := by
  have hlt := char_toNat_lt c
  rw [utf8Bytes, utf8EncodeNat, if_neg (by omega)]
  by_cases hv2 : c.toNat < 2048
  · rw [if_pos hv2]; exact ⟨_, _, rfl, by omega, by omega⟩
  · rw [if_neg hv2]
    by_cases hv3 : c.toNat < 65536
    · rw [if_pos hv3]; exact ⟨_, _, rfl, by omega, by omega⟩
    · rw [if_neg hv3]; exact ⟨_, _, rfl, by omega, by omega⟩

theorem utf8DecodeAll_cons (b : Nat) (t : List Nat) :
    utf8DecodeAll (b :: t) =
      (if b < 128 then (utf8DecodeAll t).map (fun cs => Char.ofNat b :: cs)
      else if 194 ≤ b ∧ b ≤ 223 then
        match t with
        | c1 :: t2 =>
          if 128 ≤ c1 ∧ c1 ≤ 191 then
            (utf8DecodeAll t2).map (fun cs => Char.ofNat ((b - 192) * 64 + (c1 - 128)) :: cs)
          else none
        | [] => none
      else if 224 ≤ b ∧ b ≤ 239 then
        match t with
        | c1 :: c2 :: t2 =>
          if 128 ≤ c1 ∧ c1 ≤ 191 ∧ 128 ≤ c2 ∧ c2 ≤ 191 then
            let v := (b - 224) * 4096 + (c1 - 128) * 64 + (c2 - 128)
            if 2048 ≤ v ∧ ¬(55296 ≤ v ∧ v ≤ 57343) then
              (utf8DecodeAll t2).map (fun cs => Char.ofNat v :: cs)
            else none
          else none
        | _ => none
      else if 240 ≤ b ∧ b ≤ 244 then
        match t with
        | c1 :: c2 :: c3 :: t2 =>
          if 128 ≤ c1 ∧ c1 ≤ 191 ∧ 128 ≤ c2 ∧ c2 ≤ 191 ∧ 128 ≤ c3 ∧ c3 ≤ 191 then
            let v := (b - 240) * 262144 + (c1 - 128) * 4096 + (c2 - 128) * 64 + (c3 - 128)
            if 65536 ≤ v ∧ v ≤ 1114111 then
              (utf8DecodeAll t2).map (fun cs => Char.ofNat v :: cs)
            else none
          else none
        | _ => none
      else none) := by
  rcases t with _ | ⟨c1, _ | ⟨c2, _ | ⟨c3, t2⟩⟩⟩ <;> rfl

theorem utf8DecodeAll_low (b : Nat) (t : List Nat) (h : b < 128) :
    utf8DecodeAll (b :: t) = (utf8DecodeAll t).map (fun cs => Char.ofNat b :: cs) := by
  rw [utf8DecodeAll_cons, if_pos h]

theorem utf8DecodeAll_two (b c1 : Nat) (t : List Nat) (h1 : 194 ≤ b) (h2 : b ≤ 223)
    (h3 : 128 ≤ c1) (h4 : c1 ≤ 191) :
    utf8DecodeAll (b :: c1 :: t) =
      (utf8DecodeAll t).map (fun cs => Char.ofNat ((b - 192) * 64 + (c1 - 128)) :: cs) := by
  rw [utf8DecodeAll_cons, if_neg (by omega), if_pos ⟨h1, h2⟩]
  exact if_pos ⟨h3, h4⟩

theorem utf8DecodeAll_three (b c1 c2 : Nat) (t : List Nat) (hb1 : 224 ≤ b) (hb2 : b ≤ 239)
    (h3 : 128 ≤ c1) (h4 : c1 ≤ 191) (h5 : 128 ≤ c2) (h6 : c2 ≤ 191)
    (hr : 2048 ≤ (b - 224) * 4096 + (c1 - 128) * 64 + (c2 - 128))
    (hs : ¬(55296 ≤ (b - 224) * 4096 + (c1 - 128) * 64 + (c2 - 128) ∧
            (b - 224) * 4096 + (c1 - 128) * 64 + (c2 - 128) ≤ 57343)) :
    utf8DecodeAll (b :: c1 :: c2 :: t) =
      (utf8DecodeAll t).map
        (fun cs => Char.ofNat ((b - 224) * 4096 + (c1 - 128) * 64 + (c2 - 128)) :: cs) := by
  rw [utf8DecodeAll_cons, if_neg (by omega), if_neg (by omega), if_pos ⟨hb1, hb2⟩]
  exact (if_pos ⟨h3, h4, h5, h6⟩).trans (if_pos ⟨hr, hs⟩)

theorem utf8DecodeAll_four (b c1 c2 c3 : Nat) (t : List Nat) (hb1 : 240 ≤ b) (hb2 : b ≤ 244)
    (h3 : 128 ≤ c1) (h4 : c1 ≤ 191) (h5 : 128 ≤ c2) (h6 : c2 ≤ 191)
    (h7 : 128 ≤ c3) (h8 : c3 ≤ 191)
    (hr : 65536 ≤ (b - 240) * 262144 + (c1 - 128) * 4096 + (c2 - 128) * 64 + (c3 - 128))
    (hr2 : (b - 240) * 262144 + (c1 - 128) * 4096 + (c2 - 128) * 64 + (c3 - 128) ≤ 1114111) :
    utf8DecodeAll (b :: c1 :: c2 :: c3 :: t) =
      (utf8DecodeAll t).map
        (fun cs =>
          Char.ofNat ((b - 240) * 262144 + (c1 - 128) * 4096 + (c2 - 128) * 64 + (c3 - 128)) ::
            cs) := by
  rw [utf8DecodeAll_cons, if_neg (by omega), if_neg (by omega), if_neg (by omega),
    if_pos ⟨hb1, hb2⟩]
  exact (if_pos ⟨h3, h4, h5, h6, h7, h8⟩).trans (if_pos ⟨hr, hr2⟩)

theorem utf8DecodeAll_encode_cons (c : Char) (rest : List Nat) :
    utf8DecodeAll (utf8Bytes c ++ rest) = (utf8DecodeAll rest).map (fun cs => c :: cs) := by
  have hval : c.toNat < 55296 ∨ (57343 < c.toNat ∧ c.toNat < 1114112) := c.valid
  have hofn : Char.ofNat c.toNat = c := Char.ofNat_toNat c
  by_cases h1 : c.toNat < 128
  · rw [utf8Bytes_low c h1, List.cons_append, List.nil_append, utf8DecodeAll_low _ _ h1, hofn]
  · by_cases h2 : c.toNat < 2048
    · rw [show utf8Bytes c = [192 + c.toNat / 64, 128 + c.toNat % 64] from by
        rw [utf8Bytes, utf8EncodeNat, if_neg h1, if_pos h2]]
      rw [List.cons_append, List.cons_append, List.nil_append,
        utf8DecodeAll_two _ _ _ (by omega) (by omega) (by omega) (by omega)]
      simp only [show (192 + c.toNat / 64 - 192) * 64 + (128 + c.toNat % 64 - 128) = c.toNat
        from by omega, hofn]
    · by_cases h3 : c.toNat < 65536
      · rw [show utf8Bytes c =
            [224 + c.toNat / 4096, 128 + c.toNat / 64 % 64, 128 + c.toNat % 64] from by
          rw [utf8Bytes, utf8EncodeNat, if_neg h1, if_neg h2, if_pos h3]]
        rw [List.cons_append, List.cons_append, List.cons_append, List.nil_append,
          utf8DecodeAll_three _ _ _ _ (by omega) (by omega) (by omega) (by omega)
            (by omega) (by omega) (by omega) (by omega)]
        simp only [show (224 + c.toNat / 4096 - 224) * 4096 + (128 + c.toNat / 64 % 64 - 128) * 64 +
            (128 + c.toNat % 64 - 128) = c.toNat from by omega, hofn]
      · have h4 := char_toNat_lt c
        rw [show utf8Bytes c = [240 + c.toNat / 262144, 128 + c.toNat / 4096 % 64,
            128 + c.toNat / 64 % 64, 128 + c.toNat % 64] from by
          rw [utf8Bytes, utf8EncodeNat, if_neg h1, if_neg h2, if_neg h3]]
        rw [List.cons_append, List.cons_append, List.cons_append, List.cons_append,
          List.nil_append,
          utf8DecodeAll_four _ _ _ _ _ (by omega) (by omega) (by omega) (by omega)
            (by omega) (by omega) (by omega) (by omega) (by omega) (by omega)]
        simp only [show (240 + c.toNat / 262144 - 240) * 262144 +
            (128 + c.toNat / 4096 % 64 - 128) * 4096 + (128 + c.toNat / 64 % 64 - 128) * 64 +
            (128 + c.toNat % 64 - 128) = c.toNat from by omega, hofn]

theorem utf8DecodeAll_strToUtf8 (s : List Char) : utf8DecodeAll (strToUtf8 s) = some s := by
  induction s with
  | nil => rfl
  | cons c t ih =>
    rw [show strToUtf8 (c :: t) = utf8Bytes c ++ strToUtf8 t from rfl,
      utf8DecodeAll_encode_cons, ih, Option.map_some']

/-! ## First decode pass lemmas -/

theorem urlDecodeAscii_not_pct (c : Char) (t : List Char) (h : c ≠ '%') :
    urlDecodeAscii (c :: t) = c :: urlDecodeAscii t := by
  conv_lhs => rw [urlDecodeAscii.eq_def]
  exact if_neg h

theorem urlDecodeAscii_triple (h1 h2 : Char) (t : List Char)
    (ho : isOctDigitChar h1 = true) (hh : isHexDigitChar h2 = true) :
    urlDecodeAscii ('%' :: h1 :: h2 :: t) =
      Char.ofNat (hexVal h1 * 16 + hexVal h2) :: urlDecodeAscii t := by
  have e : urlDecodeAscii ('%' :: h1 :: h2 :: t) =
      if isOctDigitChar h1 ∧ isHexDigitChar h2 then
        Char.ofNat (hexVal h1 * 16 + hexVal h2) :: urlDecodeAscii t
      else '%' :: urlDecodeAscii (h1 :: h2 :: t) := rfl
  rw [e, if_pos ⟨ho, hh⟩]

theorem urlDecodeAscii_bad_triple (h1 h2 : Char) (t : List Char)
    (h : ¬(isOctDigitChar h1 = true ∧ isHexDigitChar h2 = true)) :
    urlDecodeAscii ('%' :: h1 :: h2 :: t) = '%' :: urlDecodeAscii (h1 :: h2 :: t) := by
  have e : urlDecodeAscii ('%' :: h1 :: h2 :: t) =
      if isOctDigitChar h1 ∧ isHexDigitChar h2 then
        Char.ofNat (hexVal h1 * 16 + hexVal h2) :: urlDecodeAscii t
      else '%' :: urlDecodeAscii (h1 :: h2 :: t) := rfl
  rw [e, if_neg h]

theorem urlDecodeAscii_escTriples (bs : List Nat) (hb : ∀ b ∈ bs, 128 ≤ b ∧ b < 256) :
    ∀ rest : List Char,
      urlDecodeAscii (escTriples bs ++ rest) = escTriples bs ++ urlDecodeAscii rest := by
  induction bs with
  | nil => intro rest; rfl
  | cons b bs2 ih =>
    intro rest
    obtain ⟨hb1, hb2⟩ := hb b (List.mem_cons_self b bs2)
    have hbs2 : ∀ x ∈ bs2, 128 ≤ x ∧ x < 256 := fun x hx => hb x (List.mem_cons_of_mem b hx)
    have hq : 8 ≤ b / 16 ∧ b / 16 < 16 := by omega
    have hr : b % 16 < 16 := by omega
    show urlDecodeAscii ('%' :: hexUpper (b / 16) :: hexUpper (b % 16) ::
        (escTriples bs2 ++ rest)) = _
    rw [urlDecodeAscii_bad_triple _ _ _
        (fun hc => by rw [hexUpper_not_oct (b / 16) hq.1 hq.2] at hc; exact absurd hc.1 (by simp)),
      urlDecodeAscii_not_pct _ _ (hexUpper_ne_pct _ hq.2),
      urlDecodeAscii_not_pct _ _ (hexUpper_ne_pct _ hr),
      ih hbs2 rest]
    rfl

theorem isUnreservedChar_facts (c : Char) (h : isUnreservedChar c = true) :
    c.toNat < 128 ∧ c ≠ '%' := by
  rw [isUnreservedChar, decide_eq_true_eq] at h
  constructor
  · omega
  · exact toNat_ne_of_ne_pct c |> fun _ => fun he => by
      have : c.toNat = 37 := by rw [he]; rfl
      omega

theorem urlDecodeAscii_encodeData (s : List Char) :
    ∀ rest : List Char,
      urlDecodeAscii (concatMap urlEncodeDataChar s ++ rest) =
        concatMap passOneChar s ++ urlDecodeAscii rest := by
  induction s with
  | nil => intro rest; rfl
  | cons c t ih =>
    intro rest
    show urlDecodeAscii ((urlEncodeDataChar c ++ concatMap urlEncodeDataChar t) ++ rest) =
      (passOneChar c ++ concatMap passOneChar t) ++ urlDecodeAscii rest
    rw [List.append_assoc, List.append_assoc]
    by_cases hu : isUnreservedChar c = true
    · obtain ⟨hlt, hne⟩ := isUnreservedChar_facts c hu
      rw [show urlEncodeDataChar c = [c] from by rw [urlEncodeDataChar, if_pos hu],
        show passOneChar c = [c] from by rw [passOneChar, if_pos hlt],
        List.cons_append, List.nil_append, List.cons_append, List.nil_append,
        urlDecodeAscii_not_pct c _ hne, ih rest]
    · have he : urlEncodeDataChar c = escTriples (utf8Bytes c) := by
        rw [urlEncodeDataChar, if_neg hu]; rfl
      by_cases hlt : c.toNat < 128
      · have hb : utf8Bytes c = [c.toNat] := utf8Bytes_low c hlt
        have hq : c.toNat / 16 ≤ 7 := by omega
        have hq2 : c.toNat / 16 < 16 := by omega
        have hr : c.toNat % 16 < 16 := by omega
        rw [he, hb,
          show escTriples [c.toNat] =
            '%' :: hexUpper (c.toNat / 16) :: hexUpper (c.toNat % 16) :: [] from by
              rw [escTriples, concatMap, concatMap, List.append_nil],
          show passOneChar c = [c] from by rw [passOneChar, if_pos hlt],
          List.cons_append, List.cons_append, List.cons_append, List.nil_append,
          urlDecodeAscii_triple _ _ _ (hexUpper_oct _ hq) (hexUpper_hexDigit _ hr),
          hexVal_hexUpper _ hq2, hexVal_hexUpper _ hr,
          show c.toNat / 16 * 16 + c.toNat % 16 = c.toNat from by omega,
          Char.ofNat_toNat, ih rest]
        rfl
      · have hge : 128 ≤ c.toNat := by omega
        rw [he,
          show passOneChar c = escTriples (utf8Bytes c) from by rw [passOneChar, if_neg hlt],
          urlDecodeAscii_escTriples _ (utf8Bytes_bounds c hge), ih rest]

/-! ## Byte pass lemmas -/

theorem strToUtf8_append (a b : List Char) :
    strToUtf8 (a ++ b) = strToUtf8 a ++ strToUtf8 b :=
  concatMap_append _ a b

theorem strToUtf8_escTriples (bs : List Nat) (hb : ∀ b ∈ bs, b < 256) :
    strToUtf8 (escTriples bs) = escTriplesB bs := by
  induction bs with
  | nil => rfl
  | cons b bs2 ih =>
    have hb1 := hb b (List.mem_cons_self b bs2)
    have hbs2 : ∀ x ∈ bs2, x < 256 := fun x hx => hb x (List.mem_cons_of_mem b hx)
    show strToUtf8 (('%' :: hexUpper (b / 16) :: hexUpper (b % 16) :: []) ++ escTriples bs2) =
      (pctByte :: (hexUpper (b / 16)).toNat :: (hexUpper (b % 16)).toNat :: []) ++
        escTriplesB bs2
    rw [strToUtf8_append, ih hbs2]
    congr 1
    show utf8Bytes '%' ++ (utf8Bytes (hexUpper (b / 16)) ++ (utf8Bytes (hexUpper (b % 16)) ++ [])) = _
    rw [utf8Bytes_low '%' (by decide),
      utf8Bytes_low _ (hexUpper_toNat_lt _ (by omega)),
      utf8Bytes_low _ (hexUpper_toNat_lt _ (by omega))]
    rfl

theorem strToUtf8_passOne (s : List Char) :
    strToUtf8 (concatMap passOneChar s) = concatMap passOneByte s := by
  induction s with
  | nil => rfl
  | cons c t ih =>
    show strToUtf8 (passOneChar c ++ concatMap passOneChar t) =
      passOneByte c ++ concatMap passOneByte t
    rw [strToUtf8_append, ih]
    congr 1
    by_cases hlt : c.toNat < 128
    · rw [show passOneChar c = [c] from by rw [passOneChar, if_pos hlt],
        show passOneByte c = [c.toNat] from by rw [passOneByte, if_pos hlt]]
      show utf8Bytes c ++ [] = [c.toNat]
      rw [utf8Bytes_low c hlt, List.append_nil]
    · rw [show passOneChar c = escTriples (utf8Bytes c) from by rw [passOneChar, if_neg hlt],
        show passOneByte c = escTriplesB (utf8Bytes c) from by rw [passOneByte, if_neg hlt],
        strToUtf8_escTriples _ (fun b hb => (utf8Bytes_bounds c (by omega) b hb).2)]

theorem replaceHighRuns_not_pct (b : Nat) (t : List Nat) (h : b ≠ 37) :
    replaceHighRuns (b :: t) = b :: replaceHighRuns t := by
  conv_lhs => rw [replaceHighRuns.eq_def]
  exact if_neg h

theorem replaceHighRuns_triple (b1 b2 : Nat) (t : List Nat)
    (h1 : isHighHexByte b1 = true) (h2 : isHexByte b2 = true) :
    replaceHighRuns (37 :: b1 :: b2 :: t) =
      (byteHexVal b1 * 16 + byteHexVal b2) :: replaceHighRuns t := by
  have e : replaceHighRuns (37 :: b1 :: b2 :: t) =
      if isHighHexByte b1 ∧ isHexByte b2 then
        (byteHexVal b1 * 16 + byteHexVal b2) :: replaceHighRuns t
      else 37 :: replaceHighRuns (b1 :: b2 :: t) := rfl
  rw [e, if_pos ⟨h1, h2⟩]

theorem replaceHighRuns_pct_nohigh (b : Nat) (rest : List Nat)
    (h : isHighHexByte b = false) :
    replaceHighRuns (37 :: b :: rest) = 37 :: replaceHighRuns (b :: rest) := by
  cases rest with
  | nil => rfl
  | cons b2 r2 =>
    have e : replaceHighRuns (37 :: b :: b2 :: r2) =
        if isHighHexByte b ∧ isHexByte b2 then
          (byteHexVal b * 16 + byteHexVal b2) :: replaceHighRuns r2
        else 37 :: replaceHighRuns (b :: b2 :: r2) := rfl
    rw [e, if_neg (fun hc => by rw [h] at hc; exact absurd hc.1 (by simp))]

theorem replaceHighRuns_escTriplesB (bs : List Nat) (hb : ∀ b ∈ bs, 128 ≤ b ∧ b < 256) :
    ∀ rest : List Nat,
      replaceHighRuns (escTriplesB bs ++ rest) = bs ++ replaceHighRuns rest := by
  induction bs with
  | nil => intro rest; rfl
  | cons b bs2 ih =>
    intro rest
    obtain ⟨hb1, hb2⟩ := hb b (List.mem_cons_self b bs2)
    have hbs2 : ∀ x ∈ bs2, 128 ≤ x ∧ x < 256 := fun x hx => hb x (List.mem_cons_of_mem b hx)
    show replaceHighRuns (37 :: (hexUpper (b / 16)).toNat :: (hexUpper (b % 16)).toNat ::
        (escTriplesB bs2 ++ rest)) = (b :: bs2) ++ replaceHighRuns rest
    rw [replaceHighRuns_triple _ _ _ (hexUpper_highHexByte _ (by omega) (by omega))
        (hexUpper_hexByte _ (by omega)),
      byteHexVal_hexUpper _ (by omega), byteHexVal_hexUpper _ (by omega),
      show b / 16 * 16 + b % 16 = b from by omega, ih hbs2 rest]
    rfl

theorem replaceHighRuns_no37 (bs : List Nat) (hb : ∀ b ∈ bs, b ≠ 37) :
    ∀ rest : List Nat, replaceHighRuns (bs ++ rest) = bs ++ replaceHighRuns rest := by
  induction bs with
  | nil => intro rest; rfl
  | cons b bs2 ih =>
    intro rest
    rw [List.cons_append,
      replaceHighRuns_not_pct _ _ (hb b (List.mem_cons_self b bs2)),
      ih (fun x hx => hb x (List.mem_cons_of_mem b hx)) rest]
    rfl

theorem replaceHighRuns_passOne (s : List Char) (hs : '%' ∉ s) :
    ∀ rest : List Nat,
      replaceHighRuns (concatMap passOneByte s ++ rest) =
        strToUtf8 s ++ replaceHighRuns rest := by
  induction s with
  | nil => intro rest; rfl
  | cons c t ih =>
    intro rest
    have hc : c ≠ '%' := fun h => hs (h ▸ List.mem_cons_self c t)
    have ht : '%' ∉ t := fun h => hs (List.mem_cons_of_mem c h)
    show replaceHighRuns ((passOneByte c ++ concatMap passOneByte t) ++ rest) =
      (utf8Bytes c ++ strToUtf8 t) ++ replaceHighRuns rest
    rw [List.append_assoc, List.append_assoc]
    by_cases hlt : c.toNat < 128
    · rw [show passOneByte c = [c.toNat] from by rw [passOneByte, if_pos hlt],
        utf8Bytes_low c hlt, List.cons_append, List.nil_append, List.cons_append,
        List.nil_append, replaceHighRuns_not_pct _ _ (toNat_ne_of_ne_pct c hc), ih ht rest]
    · rw [show passOneByte c = escTriplesB (utf8Bytes c) from by rw [passOneByte, if_neg hlt],
        replaceHighRuns_escTriplesB _ (utf8Bytes_bounds c (by omega)) _, ih ht rest]

/-! ## C1: DATA-mode round trip -/

/-- C1 counterexample: the round trip is not the identity on strings that
already contain percent-escape-shaped text: `url_encode` escapes `%`
itself, but the final UTF-8 pass of `url_decode` re-interprets the
reconstructed high-byte escape run, so `"%C3%A9"` comes back as `"é"`. -/
theorem c1_counterexample :
    url_decode (url_encode ("%C3%A9".toList) URL_ENCODE_DATA) URL_ENCODE_DATA ≠
      "%C3%A9".toList ∧
    url_decode (url_encode ("%C3%A9".toList) URL_ENCODE_DATA) URL_ENCODE_DATA =
      "é".toList := by
  constructor
  · decide
  · decide

/-- C1 (amended): for every input string that contains no `%` character
(in particular no pre-existing percent-escape), decoding the DATA-mode
encoding returns the input unchanged. -/
theorem c1_data_roundtrip (s : List Char) (h : '%' ∉ s) :
    url_decode (url_encode s URL_ENCODE_DATA) URL_ENCODE_DATA = s := by
  have h1 : url_encode s URL_ENCODE_DATA = concatMap urlEncodeDataChar s := by
    rw [url_encode, if_pos rfl]
  have h2 : urlDecodeAscii (concatMap urlEncodeDataChar s) = concatMap passOneChar s := by
    have h2a := urlDecodeAscii_encodeData s []
    rwa [List.append_nil, show urlDecodeAscii [] = [] from rfl, List.append_nil] at h2a
  have h3 : replaceHighRuns (concatMap passOneByte s) = strToUtf8 s := by
    have h3a := replaceHighRuns_passOne s h []
    rwa [List.append_nil, show replaceHighRuns [] = [] from rfl, List.append_nil] at h3a
  have e : url_decode (url_encode s URL_ENCODE_DATA) URL_ENCODE_DATA =
      match utf8DecodeAll (replaceHighRuns (strToUtf8
        (urlDecodeAscii (url_encode s URL_ENCODE_DATA)))) with
      | some v => v
      | none => urlDecodeAscii (url_encode s URL_ENCODE_DATA) := rfl
  rw [e, h1, h2, strToUtf8_passOne, h3, utf8DecodeAll_strToUtf8]

/-- C1 witness: a concrete percent-free string with spaces, slashes and
non-ASCII characters round-trips through DATA mode. -/
theorem c1_witness :
    ('%' ∉ ("héllo wörld/a~b!".toList)) ∧
    url_decode (url_encode ("héllo wörld/a~b!".toList) URL_ENCODE_DATA) URL_ENCODE_DATA =
      "héllo wörld/a~b!".toList :=
  ⟨by decide, c1_data_roundtrip ("héllo wörld/a~b!".toList) (by decide)⟩

/-! ## C2: READABLE-mode decoding -/

theorem isHighHexByte_false_of_ge (b : Nat) (h : 194 ≤ b) : isHighHexByte b = false := by
  rw [isHighHexByte, decide_eq_false_iff_not]
  omega

theorem noHighEscape_fix (u : List Char) (h : noHighEscape u = true) :
    replaceHighRuns (strToUtf8 u) = strToUtf8 u := by
  induction u with
  | nil => rfl
  | cons c t ih =>
    have e : noHighEscape (c :: t) =
        if c = '%' then headNotHighHex t && noHighEscape t
        else noHighEscape t := rfl
    by_cases hc : c = '%'
    · rw [e, if_pos hc, Bool.and_eq_true] at h
      obtain ⟨hm, ht⟩ := h
      subst hc
      show replaceHighRuns (utf8Bytes '%' ++ strToUtf8 t) = utf8Bytes '%' ++ strToUtf8 t
      rw [utf8Bytes_low '%' (by decide), List.cons_append, List.nil_append,
        show ('%'.toNat : Nat) = 37 from rfl]
      cases t with
      | nil => rfl
      | cons d t2 =>
        have hm2 : isHighHexByte d.toNat = false := by
          rw [show headNotHighHex (d :: t2) = !isHighHexChar d from rfl,
            Bool.not_eq_eq_eq_not, Bool.not_true] at hm
          exact hm
        by_cases hlt : d.toNat < 128
        · have hst : strToUtf8 (d :: t2) = d.toNat :: strToUtf8 t2 := by
            rw [show strToUtf8 (d :: t2) = utf8Bytes d ++ strToUtf8 t2 from rfl,
              utf8Bytes_low d hlt, List.cons_append, List.nil_append]
          rw [hst, replaceHighRuns_pct_nohigh _ _ hm2, ← hst, ih ht]
        · obtain ⟨b, bs, hd, hb1, hb2⟩ := utf8Bytes_head_high d (by omega)
          have hst : strToUtf8 (d :: t2) = b :: (bs ++ strToUtf8 t2) := by
            rw [show strToUtf8 (d :: t2) = utf8Bytes d ++ strToUtf8 t2 from rfl, hd,
              List.cons_append]
          rw [hst, replaceHighRuns_pct_nohigh _ _ (isHighHexByte_false_of_ge b hb1),
            ← hst, ih ht]
    · rw [e, if_neg hc] at h
      show replaceHighRuns (utf8Bytes c ++ strToUtf8 t) = utf8Bytes c ++ strToUtf8 t
      by_cases hlt : c.toNat < 128
      · rw [utf8Bytes_low c hlt, List.cons_append, List.nil_append,
          replaceHighRuns_not_pct _ _ (toNat_ne_of_ne_pct c hc), ih h]
      · rw [replaceHighRuns_no37 _
            (fun b hb => by have h2 := utf8Bytes_bounds c (by omega) b hb; omega) _,
          ih h]

/-- C2 counterexample: READABLE-mode decoding does not leave high-byte
escape sequences intact — the second decode pass runs in every mode, so
`url_decode("%C3%A9", URL_ENCODE_READABLE)` yields `"é"`, not
`"%C3%A9"`. -/
theorem c2_counterexample :
    url_decode ("%C3%A9".toList) URL_ENCODE_READABLE = "é".toList ∧
    url_decode ("%C3%A9".toList) URL_ENCODE_READABLE ≠ "%C3%A9".toList := by
  constructor
  · decide
  · decide

/-- C2 (amended): READABLE-mode decoding replaces the literal sequence
`%20` with a space and leaves every other ASCII `%XX` escape unchanged,
but additionally decodes runs of high-byte escapes as UTF-8: whenever the
`%20`-replaced string has no `%` followed by a high hex digit the result
is exactly the `%20` replacement, and in particular `"a%20b"` becomes
`"a b"` and `"a%41b"` stays `"a%41b"`, while `"%C3%A9"` becomes `"é"`. -/
theorem c2_readable_decode (s : List Char)
    (h : noHighEscape (replace20 s) = true) :
    url_decode s URL_ENCODE_READABLE = replace20 s ∧
    url_decode ("a%20b".toList) URL_ENCODE_READABLE = "a b".toList ∧
    url_decode ("a%41b".toList) URL_ENCODE_READABLE = "a%41b".toList ∧
    url_decode ("%C3%A9".toList) URL_ENCODE_READABLE = "é".toList := by
  refine ⟨?_, by decide, by decide, by decide⟩
  have e : url_decode s URL_ENCODE_READABLE =
      match utf8DecodeAll (replaceHighRuns (strToUtf8 (replace20 s))) with
      | some v => v
      | none => replace20 s := rfl
  rw [e, noHighEscape_fix _ h, utf8DecodeAll_strToUtf8]

/-- C2 witness: the general statement applied at `"a%41b"`, whose
`%20`-replaced form has no high-byte escape. -/
theorem c2_witness :
    noHighEscape (replace20 ("a%41b".toList)) = true ∧
    url_decode ("a%41b".toList) URL_ENCODE_READABLE = replace20 ("a%41b".toList) :=
  ⟨by decide, (c2_readable_decode ("a%41b".toList) (by decide)).1⟩

/-! ## C5: decode failure granularity -/

/-- C5 counterexample: recovery from invalid UTF-8 in the second decode
pass is not local.  The run `%C3%A9` alone decodes to `"é"`, but in
`"%C3%A9 %FF"` the whole byte form fails to decode because of `%FF`, so
the valid run `%C3%A9` is also left un-decoded instead of being decoded
normally. -/
theorem c5_counterexample :
    url_decode ("%C3%A9".toList) URL_ENCODE_DATA = "é".toList ∧
    url_decode ("%C3%A9 %FF".toList) URL_ENCODE_DATA = "%C3%A9 %FF".toList ∧
    url_decode ("%C3%A9 %FF".toList) URL_ENCODE_DATA ≠ "é %FF".toList := by
  refine ⟨by decide, by decide, by decide⟩

/-- C5 (amended): DATA-mode decoding never raises on undecodable high-byte
runs: the second pass substitutes all high-byte escape runs in the byte
form at once and decodes the whole result; when that whole decode fails
the entire first-pass string is returned unchanged (so every run stays
escaped, valid ones included), and when it succeeds all runs are decoded.
Concretely: a valid run alone decodes, an invalid run alone stays, and an
invalid run prevents a valid one from decoding. -/
theorem c5_decode_failure_granularity :
    (∀ s : List Char,
      url_decode s URL_ENCODE_DATA =
        match utf8DecodeAll (replaceHighRuns (strToUtf8 (urlDecodeAscii s))) with
        | some v => v
        | none => urlDecodeAscii s) ∧
    url_decode ("%C3%A9".toList) URL_ENCODE_DATA = "é".toList ∧
    url_decode ("%FF".toList) URL_ENCODE_DATA = "%FF".toList ∧
    url_decode ("%C3%A9 %FF".toList) URL_ENCODE_DATA = "%C3%A9 %FF".toList := by
  refine ⟨fun s => rfl, by decide, by decide, by decide⟩
